import Mathlib

/-!
The jenkins-bot pipeline, from a feed item to a chat notification.

A shallow embedding of `main.go`: the title classifier `titleToState`, the
pull-request number extraction and record construction of `prHandler` /
`processPR`, the enrichment step `PR.Process`, and the dispatch loop of
`itemHandler` with its wait group.

Go strings are byte sequences, so a string is a list of bytes here and every
index is a byte offset.  Code that can stop with a run-time panic (a slice
expression out of range, a nil dereference) returns a `Run`.
-/

namespace JenkinsBot

/-! ## Strings and the library functions the program calls -/

/-- A Go `string`: an immutable sequence of bytes. -/
abbrev GoString := List UInt8

/-- The bytes of a string literal, UTF-8 encoded as the Go compiler stores it. -/
def go (s : String) : GoString := s.toList.flatMap String.utf8EncodeChar

/-- Result of running Go code that may stop with a run-time panic. -/
inductive Run (α : Type) where
  | panic : Run α
  | done : α → Run α
  deriving DecidableEq, Repr

/-- Library `strings.HasPrefix(s, p)`: does `s` begin with `p`. -/
def HasPrefix : GoString → GoString → Bool
  | _, [] => true
  | [], _ :: _ => false
  | c :: s, d :: p => c == d && HasPrefix s p

/-- Scan for `substr` from the current position, `i` being the offset already passed. -/
def indexFrom (substr : GoString) : GoString → Nat → Int
  | [], i => if substr = [] then (i : Int) else -1
  | c :: t, i => if HasPrefix (c :: t) substr then (i : Int) else indexFrom substr t (i + 1)

/-- Library `strings.Index(s, substr)`: the byte offset of the first instance of
`substr` in `s`, or `-1` if `substr` is not present in `s`. -/
def Index (s substr : GoString) : Int := indexFrom substr s 0

/-- Library `strings.Contains(s, substr)`, which is `Index(s, substr) >= 0`. -/
def Contains (s substr : GoString) : Bool := decide (0 ≤ Index s substr)

/-- The slice expression `s[lo:]`: panics unless `0 ≤ lo ≤ len(s)`. -/
def sliceFrom (s : GoString) (lo : Int) : Run GoString :=
  if 0 ≤ lo ∧ lo ≤ (s.length : Int) then .done (s.drop lo.toNat) else .panic

/-- The slice expression `s[:hi]`: panics unless `0 ≤ hi ≤ len(s)`. -/
def sliceTo (s : GoString) (hi : Int) : Run GoString :=
  if 0 ≤ hi ∧ hi ≤ (s.length : Int) then .done (s.take hi.toNat) else .panic

/-- The loop of the library's `genSplit`, with `k` the iterations left:
`for i < n { m := Index(s, sep); if m < 0 { break }; a[i] = s[:m]; s = s[m+len(sep):]; i++ }`
followed by `a[i] = s`. -/
def genSplitLoop (sep : GoString) : Nat → GoString → List GoString
  | 0, s => [s]
  | k + 1, s =>
    let m := Index s sep
    if m < 0 then [s]
    else s.take m.toNat :: genSplitLoop sep k (s.drop (m.toNat + sep.length))

/-- Library `strings.SplitN(s, sep, n)` for a count `n ≥ 0` and a non-empty
separator: at most `n` substrings, the last one the unsplit remainder; `n = 0`
gives no substring.  The count is first capped at `len(s) + 1`.  The library's
separate branch for an empty separator (one substring per UTF-8 sequence) is not
used by this program and is not modelled: the result is empty there. -/
def SplitN (s sep : GoString) (n : Nat) : List GoString :=
  if n = 0 then []
  else if sep = [] then []
  else genSplitLoop sep (min n (s.length + 1) - 1) s

/-- Is the byte one of `'0'` .. `'9'`. -/
def isDigit (b : UInt8) : Bool := decide (48 ≤ b.toNat ∧ b.toNat ≤ 57)

/-- Value of a run of decimal digit bytes, most significant first. -/
def digitsValue (ds : GoString) : Nat :=
  ds.foldl (fun n ch => n * 10 + (ch.toNat - 48)) 0

/-- Library `strconv.Atoi(s)` on a platform with 64-bit `int`: an optional sign
`+` or `-`, then one or more decimal digits, the value within
`-2^63 .. 2^63 - 1`.  The result is `none` when the library returns a non-nil
error (syntax or range), the only thing the program tests. -/
def Atoi (s : GoString) : Option Int :=
  let neg : Bool := decide (s.head? = some 45)
  let ds := if s.head? = some 45 ∨ s.head? = some 43 then s.tail else s
  if ds = [] then none
  else if ds.all isDigit = false then none
  else if neg then
    (if digitsValue ds ≤ 2 ^ 63 then some (-(digitsValue ds : Int)) else none)
  else
    (if digitsValue ds < 2 ^ 63 then some (digitsValue ds : Int) else none)

/-! ## `titleToState` (main.go, lines 94-112) -/

/-- Source `titleToState`. -/
def titleToState (title : GoString) : GoString :=
  let parts := SplitN title (go " ") 3
  if parts.length ≠ 3 then go "UNKNOWN"
  else
    let status := parts.getD 2 []
    if Contains status (go "broken since") then go "STILL FAILING"
    else if Contains status (go "back to normal") then go "NOW FIXED"
    else if Contains status (go "stable") then go "STILL OK"
    else if Contains status (go "aborted") then go ""
    else go "UNKNOWN(" ++ status ++ go ")"

/-- The reference split of the specification: the title cut at single space
characters into at most three parts, the third part keeping its spaces. -/
def specParts (title : GoString) : List GoString :=
  match title.span (fun b => b != 32) with
  | (a, []) => [a]
  | (a, _ :: r) =>
    match r.span (fun b => b != 32) with
    | (b, []) => [a, b]
    | (b, _ :: c) => [a, b, c]

/-- The reference classifier of the specification, in its words: not exactly
three parts gives `UNKNOWN`; otherwise the third part is searched for the four
phrases in priority order, first match wins. -/
def specClassifier (title : GoString) : GoString :=
  match specParts title with
  | [_, _, s] =>
    if go "broken since" <:+: s then go "STILL FAILING"
    else if go "back to normal" <:+: s then go "NOW FIXED"
    else if go "stable" <:+: s then go "STILL OK"
    else if go "aborted" <:+: s then go ""
    else go "UNKNOWN(" ++ s ++ go ")"
  | _ => go "UNKNOWN"



/-- The whitespace bytes: space, and tab, newline, vertical tab, form feed,
carriage return. -/
def isSpaceByte (b : UInt8) : Bool := decide (b.toNat = 32 ∨ (9 ≤ b.toNat ∧ b.toNat ≤ 13))

/-- Number of maximal runs of non-whitespace bytes in the rest of a string,
`inRun` telling whether the byte before belongs to such a run. -/
def countRuns : GoString → Bool → Nat
  | [], _ => 0
  | b :: t, inRun =>
    if isSpaceByte b then countRuns t false
    else (if inRun then 0 else 1) + countRuns t true

/-- The number of whitespace-separated segments of a title, as the specification
counts them: the maximal runs of non-whitespace bytes. -/
def specSegments (title : GoString) : Nat := countRuns title false

/-! ## The notification record and its enrichment (main.go, lines 34-54) -/

/-- Source `type PR struct`; `ID` is a Go `int`. -/
structure PR where
  ID : Int
  JobURL : GoString
  Title : GoString
  Author : GoString
  Status : GoString
  deriving DecidableEq, Repr

/-- The field of go-github's `User` that the program reads, `Login *string`;
`none` is the nil pointer. -/
structure User where
  Login : Option GoString
  deriving DecidableEq, Repr

/-- The fields of go-github's `PullRequest` that the program reads,
`User *User` and `Title *string`; `none` is the nil pointer. -/
structure PullRequest where
  User : Option User
  Title : Option GoString
  deriving DecidableEq, Repr

/-- What `client.PullRequests.Get(GithubRepoOrg, GithubRepoName, p.ID)` gives
back: a non-nil `err`, or the pull request. -/
inductive Lookup where
  | err : Lookup
  | ok : PullRequest → Lookup
  deriving DecidableEq, Repr

/-- Source `(p *PR) Process()`, given the outcome `resp` of the lookup.
`*user.Login` dereferences the pointer, which panics when it is nil. -/
def PR.Process (p : PR) (resp : Lookup) : Run PR :=
  match resp with
  | .err => .done p
  | .ok pr =>
    let afterUser : Run PR :=
      match pr.User with
      | none => .done p
      | some user =>
        match user.Login with
        | none => .panic
        | some login => .done { p with Author := login }
    match afterUser with
    | .panic => .panic
    | .done p1 =>
      match pr.Title with
      | none => .done p1
      | some title => .done { p1 with Title := title }

/-! ## `prHandler` and its closure `processPR` (main.go, lines 114-133) -/

/-- Lines 124-125 of `processPR`:
`s := content[strings.Index(content, "/pull/")+6:]` and
`num, err := strconv.Atoi(s[:strings.Index(s, "\"")])`.
A slice expression out of range panics; `done none` is a non-nil `err`. -/
def parsePull (content : GoString) : Run (Option Int) :=
  match sliceFrom content (Index content (go "/pull/") + 6) with
  | .panic => .panic
  | .done s =>
    match sliceTo s (Index s (go "\"")) with
    | .panic => .panic
    | .done digits => .done (Atoi digits)

/-- Source closure `processPR`: the result lists the records sent on `prChan`.
On `err != nil` it returns without sending; otherwise it sends
`pr.Process()` for `pr := &PR{JobURL: href, ID: num, Status: status}`.
`get` is the pull-request lookup of the shared client. -/
def processPR (get : Int → Lookup) (content href status : GoString) : Run (List PR) :=
  match parsePull content with
  | .panic => .panic
  | .done none => .done []
  | .done (some num) =>
    match PR.Process ⟨num, href, [], [], status⟩ (get num) with
    | .panic => .panic
    | .done pr => .done [pr]

/-- The field of `rss.Link` that the program reads. -/
structure Link where
  Href : GoString
  deriving DecidableEq, Repr

/-- The field of `rss.Content` that the program reads. -/
structure Content where
  Text : GoString
  deriving DecidableEq, Repr

/-- The fields of `rss.Item` that the program reads: `Title string`,
`Links []*Link`, `Content *Content`. -/
structure Item where
  Title : GoString
  Links : List Link
  Content : Option Content
  deriving DecidableEq, Repr

/-- Source `prHandler`: the result is what the task it starts with
`go processPR(item.Content.Text, item.Links[0].Href, status)` does, namely the
records it sends on `prChan`, or a panic. -/
def prHandler (get : Int → Lookup) (item : Item) : Run (List PR) :=
  match item.Links, item.Content with
  | [], _ => .done []
  | _ :: _, none => .done []
  | link :: _, some content =>
    let status := titleToState item.Title
    processPR get content.Text link.Href status

/-! ## `itemHandler` (main.go, lines 76-92) -/

/-- The `for _, item := range newitems` loop of `itemHandler`, `count` being the
counter on entry to an iteration: `count++`, start the task for `item`, and
`if count > 5 { break }`.  The result lists the items a task was started for, in
start order. -/
def dispatchLoop : List Item → Nat → List Item
  | [], _ => []
  | item :: rest, count =>
    if count + 1 > 5 then [item] else item :: dispatchLoop rest (count + 1)

/-- What one call of `itemHandler` does with its wait group: the argument of
`wg.Add`, and the items whose task (each ending in one `wg.Done`) was started. -/
structure Dispatch where
  added : Nat
  started : List Item
  deriving DecidableEq, Repr

/-- Source `itemHandler`: `wg.Add(len(newitems))`, then the loop. -/
def itemHandler (newitems : List Item) : Dispatch :=
  ⟨newitems.length, dispatchLoop newitems 0⟩

/-- The wait-group counter once every started task has called `wg.Done`. -/
def Dispatch.counterAfterDone (d : Dispatch) : Int :=
  (d.added : Int) - (d.started.length : Int)

/-- Does `wg.Wait()` return once every started task has completed: it returns
exactly when the counter is zero. -/
def Dispatch.waitReturns (d : Dispatch) : Bool := decide (d.counterAfterDone = 0)

/-- A sample batch of `n` distinct feed items, numbered from 0 in their titles,
without links or content. -/
def sampleBatch (n : Nat) : List Item :=
  (List.range n).map (fun k => ⟨go (toString k), [], none⟩)

/-! ## Facts about the library functions -/

theorem hasPrefix_iff : ∀ (s p : GoString), HasPrefix s p = true ↔ p <+: s
  | _, [] => by simp [HasPrefix]
  | [], _ :: _ => by simp [HasPrefix]
  | c :: s, d :: p => by
    simp only [HasPrefix, Bool.and_eq_true, beq_iff_eq, hasPrefix_iff s p, List.cons_prefix_cons]
    constructor
    · rintro ⟨h, h2⟩; exact ⟨h.symm, h2⟩
    · rintro ⟨h, h2⟩; exact ⟨h.symm, h2⟩

/-- What `indexFrom` returns: `-1` when the pattern does not occur, otherwise the
offset of the first position at which the pattern starts. -/
theorem indexFrom_spec (p : GoString) : ∀ (s : GoString) (i : Nat),
    (indexFrom p s i = -1 ∧ ¬ p <:+: s) ∨
    (∃ k, indexFrom p s i = ((i + k : Nat) : Int) ∧ p <+: s.drop k ∧
      ∀ j, j < k → ¬ p <+: s.drop j)
  | [], i => by
    by_cases hp : p = []
    · right; exact ⟨0, by simp [indexFrom, hp], by simp [hp], by simp⟩
    · left; simp [indexFrom, hp]
  | c :: t, i => by
    by_cases h : HasPrefix (c :: t) p = true
    · right
      exact ⟨0, by simp [indexFrom, h], by simpa using (hasPrefix_iff _ _).1 h, by simp⟩
    · have hnp : ¬ p <+: c :: t := fun hp => h ((hasPrefix_iff _ _).2 hp)
      rcases indexFrom_spec p t (i + 1) with ⟨h1, h2⟩ | ⟨k, h1, h2, h3⟩
      · left
        refine ⟨by simp [indexFrom, h, h1], ?_⟩
        rw [List.infix_cons_iff]
        rintro (hp | hp)
        · exact hnp hp
        · exact h2 hp
      · right
        refine ⟨k + 1, ?_, by simpa using h2, ?_⟩
        · simp only [indexFrom, h]
          simp only [Bool.false_eq_true, if_false, h1]
          push_cast; ring
        · intro j hj
          cases j with
          | zero => simpa using hnp
          | succ j => simpa using h3 j (by omega)

theorem index_spec (s p : GoString) :
    (Index s p = -1 ∧ ¬ p <:+: s) ∨
    (∃ k : Nat, Index s p = (k : Int) ∧ p <+: s.drop k ∧ ∀ j, j < k → ¬ p <+: s.drop j) := by
  rcases indexFrom_spec p s 0 with h | ⟨k, h1, h2, h3⟩
  · exact Or.inl h
  · exact Or.inr ⟨k, by simpa [Index] using h1, h2, h3⟩

theorem drop_prefix_infix {p s : GoString} {k : Nat} (h : p <+: s.drop k) : p <:+: s := by
  obtain ⟨t, ht⟩ := h
  exact ⟨s.take k, t, by rw [List.append_assoc, ht, List.take_append_drop]⟩

theorem contains_iff (s p : GoString) : Contains s p = true ↔ p <:+: s := by
  unfold Contains
  rcases index_spec s p with ⟨h1, h2⟩ | ⟨k, h1, h2, _⟩
  · simp [h1, h2]
  · have : p <:+: s := drop_prefix_infix h2
    simp [h1, this]

/-! ## Splitting at a single byte -/

theorem indexFrom_single (c : UInt8) : ∀ (s : GoString) (i : Nat),
    indexFrom [c] s i =
      if s.dropWhile (fun b => b != c) = [] then -1
      else (((i + (s.takeWhile (fun b => b != c)).length : Nat)) : Int)
  | [], i => by simp [indexFrom]
  | x :: t, i => by
    by_cases hx : x = c
    · subst hx
      simp [indexFrom, HasPrefix, List.dropWhile, List.takeWhile]
    · have ih := indexFrom_single c t (i + 1)
      simp only [indexFrom, HasPrefix, beq_iff_eq, hx, Bool.and_true, decide_False,
        Bool.false_eq_true, if_false, ih]
      have hne : (x != c) = true := by simpa using hx
      simp only [List.dropWhile, List.takeWhile, hne, List.length_cons]
      split
      · rfl
      · push_cast; ring

/-- One iteration of the split loop at a single-byte separator. -/
theorem genSplitLoop_single_succ (c : UInt8) (k : Nat) (s : GoString) :
    genSplitLoop [c] (k + 1) s =
      if s.dropWhile (fun b => b != c) = [] then [s]
      else s.takeWhile (fun b => b != c) ::
        genSplitLoop [c] k (s.dropWhile (fun b => b != c)).tail := by
  have happ := List.takeWhile_append_dropWhile (fun b => b != c) s
  generalize htw : s.takeWhile (fun b => b != c) = tw at happ
  generalize hdw : s.dropWhile (fun b => b != c) = dw at happ
  have hidx := indexFrom_single c s 0
  rw [htw, hdw] at hidx
  simp only [genSplitLoop, Index]
  cases dw with
  | nil =>
    simp only [if_true] at hidx
    simp [hidx]
  | cons d r =>
    simp only [List.cons_ne_nil, if_false, Nat.zero_add] at hidx
    have h1 : ¬ ((tw.length : Int) < 0) := by omega
    simp only [hidx, h1, if_false, Int.toNat_ofNat, List.length_singleton, List.tail_cons,
      List.cons_ne_nil]
    subst happ
    have hsplit : tw ++ d :: r = (tw ++ [d]) ++ r := by simp
    rw [List.take_left, hsplit, ← List.length_singleton d, ← List.length_append, List.drop_left]

theorem takeWhile_of_dropWhile_nil (p : UInt8 → Bool) (s : GoString)
    (h : s.dropWhile p = []) : s.takeWhile p = s := by
  have := List.takeWhile_append_dropWhile p s
  rw [h, List.append_nil] at this
  exact this

theorem specParts_eq_loop (s : GoString) : genSplitLoop [32] 2 s = specParts s := by
  unfold specParts
  rw [genSplitLoop_single_succ, List.span_eq_take_drop]
  cases h : s.dropWhile (fun b => b != 32) with
  | nil => simp [takeWhile_of_dropWhile_nil _ _ h]
  | cons d r =>
    simp only [List.cons_ne_nil, if_false, List.tail_cons]
    rw [genSplitLoop_single_succ, List.span_eq_take_drop]
    cases h2 : r.dropWhile (fun b => b != 32) with
    | nil => simp [takeWhile_of_dropWhile_nil _ _ h2]
    | cons d2 r2 => simp [genSplitLoop]

theorem go_space : go " " = [32] := by decide

theorem splitN_eq_specParts (title : GoString) :
    SplitN title (go " ") 3 = specParts title := by
  rw [go_space]
  unfold SplitN
  simp only [OfNat.ofNat_ne_zero, if_false, List.cons_ne_nil]
  match title with
  | [] => decide
  | [x] =>
    have hk : min 3 (([x] : GoString).length + 1) - 1 = 1 := by simp
    rw [hk, genSplitLoop_single_succ]
    unfold specParts
    rw [List.span_eq_take_drop]
    by_cases hx : x = 32
    · subst hx; decide
    · have hne : (x != 32) = true := by simpa using hx
      simp [List.dropWhile, List.takeWhile, hne]
  | x :: y :: t =>
    have hk : min 3 ((x :: y :: t : GoString).length + 1) - 1 = 2 := by
      simp only [List.length_cons]; omega
    rw [hk]
    exact specParts_eq_loop _

theorem specParts_length (title : GoString) :
    (specParts title).length = 1 ∨ (specParts title).length = 2 ∨
      (specParts title).length = 3 := by
  unfold specParts
  split
  · simp
  · split <;> simp

/-- The source classifier agrees with the reference classifier on every title. -/
theorem titleToState_refines (title : GoString) :
    titleToState title = specClassifier title := by
  unfold titleToState specClassifier
  simp only [splitN_eq_specParts]
  have hlen := specParts_length title
  rcases hp : specParts title with _ | ⟨a, _ | ⟨b, _ | ⟨c, _ | ⟨d, r⟩⟩⟩⟩
  · simp
  · simp
  · simp
  · simp only [List.length_cons, List.length_nil, ne_eq, not_true_eq_false, if_false,
      List.getD_cons_succ, List.getD_cons_zero, contains_iff]
  · rw [hp] at hlen
    simp only [List.length_cons] at hlen
    omega

/-! ## First occurrence, decimal digits and `Atoi` -/

/-- When the pattern starts right after `pre` and at no earlier offset, `Index`
returns `len(pre)`. -/
theorem index_of_first (pre rest p : GoString) (hp : p <+: rest)
    (hfirst : ∀ k, k < pre.length → ¬ p <+: (pre ++ rest).drop k) :
    Index (pre ++ rest) p = (pre.length : Int) := by
  rcases index_spec (pre ++ rest) p with ⟨_, h2⟩ | ⟨k, h1, h2, h3⟩
  · exfalso
    apply h2
    have : p <+: (pre ++ rest).drop pre.length := by simpa using hp
    exact drop_prefix_infix this
  · rw [h1]
    have hle : ¬ k < pre.length := fun hk => hfirst k hk h2
    have hge : ¬ pre.length < k := fun hk => h3 pre.length hk (by simpa using hp)
    have : k = pre.length := by omega
    rw [this]

theorem digitChar_bytes (d : Nat) (hd : d < 10) :
    String.utf8EncodeChar (Nat.digitChar d) = [UInt8.ofNat (48 + d)] := by
  interval_cases d <;> rfl

theorem digit_byte (d : Nat) (hd : d < 10) :
    isDigit (UInt8.ofNat (48 + d)) = true ∧ (UInt8.ofNat (48 + d)).toNat - 48 = d := by
  interval_cases d <;> decide

theorem digitsValue_append (ds : GoString) (b : UInt8) :
    digitsValue (ds ++ [b]) = digitsValue ds * 10 + (b.toNat - 48) := by
  simp [digitsValue]

theorem toDigitsCore_bytes : ∀ (fuel n : Nat) (acc : List Char), n < fuel →
    ∃ ds : GoString,
      (Nat.toDigitsCore 10 fuel n acc).flatMap String.utf8EncodeChar =
        ds ++ acc.flatMap String.utf8EncodeChar ∧
      ds ≠ [] ∧ ds.all isDigit = true ∧ digitsValue ds = n
  | 0, n, acc, h => by omega
  | fuel + 1, n, acc, h => by
    have hd : n % 10 < 10 := Nat.mod_lt _ (by decide)
    obtain ⟨hb1, hb2⟩ := digit_byte (n % 10) hd
    by_cases h0 : n / 10 = 0
    · refine ⟨[UInt8.ofNat (48 + n % 10)], ?_, by simp, by simp [hb1], ?_⟩
      · simp [Nat.toDigitsCore, h0, digitChar_bytes _ hd]
      · have := digitsValue_append [] (UInt8.ofNat (48 + n % 10))
        simp only [List.nil_append] at this
        rw [this, hb2]
        simp only [digitsValue, List.foldl_nil]
        omega
    · obtain ⟨ds, h1, h2, h3, h4⟩ :=
        toDigitsCore_bytes fuel (n / 10) (Nat.digitChar (n % 10) :: acc) (by omega)
      refine ⟨ds ++ [UInt8.ofNat (48 + n % 10)], ?_, by simp, by simp [h3, hb1], ?_⟩
      · simp only [Nat.toDigitsCore, h0, if_false, h1, List.flatMap_cons,
          digitChar_bytes _ hd, List.append_assoc]
      · rw [digitsValue_append, h4, hb2]
        omega

/-- The decimal representation of `n` is a non-empty run of digit bytes whose
value is `n`. -/
theorem decimal_spec (n : Nat) :
    go (toString n) ≠ [] ∧ (go (toString n)).all isDigit = true ∧
      digitsValue (go (toString n)) = n := by
  obtain ⟨ds, h1, h2, h3, h4⟩ := toDigitsCore_bytes (n + 1) n [] (by omega)
  have hgo : go (toString n) = ds := by
    have : (toString n).toList = Nat.toDigitsCore 10 (n + 1) n [] := rfl
    unfold go
    rw [this, h1]
    simp
  rw [hgo]
  exact ⟨h2, h3, h4⟩

theorem isDigit_ne {b c : UInt8} (hb : isDigit b = true) (hc : isDigit c = false) : b ≠ c := by
  intro h
  rw [h, hc] at hb
  exact Bool.false_ne_true hb

/-- Library `Atoi` accepts a non-empty run of digits whose value fits a 64-bit `int`. -/
theorem atoi_digits (ds : GoString) (hne : ds ≠ []) (hall : ds.all isDigit = true)
    (hv : digitsValue ds < 2 ^ 63) : Atoi ds = some (digitsValue ds : Int) := by
  cases ds with
  | nil => exact absurd rfl hne
  | cons b t =>
    have hb : isDigit b = true := by
      simp only [List.all_cons, Bool.and_eq_true] at hall
      exact hall.1
    have h45 : b ≠ 45 := isDigit_ne hb (by decide)
    have h43 : b ≠ 43 := isDigit_ne hb (by decide)
    have hv2 : digitsValue (b :: t) < 9223372036854775808 := by
      norm_num at hv
      exact hv
    simp [Atoi, h45, h43, hall, hv2]

/-- The first double quote after a run of digits is found right after the run. -/
theorem index_quote_after_digits (ds post : GoString) (hall : ds.all isDigit = true) :
    Index (ds ++ 34 :: post) [34] = (ds.length : Int) := by
  have hmem : ∀ a ∈ ds, (fun b : UInt8 => b != 34) a = true := by
    intro a ha
    have : isDigit a = true := by
      rw [List.all_eq_true] at hall
      exact hall a ha
    simpa using isDigit_ne this (by decide)
  unfold Index
  rw [indexFrom_single, List.dropWhile_append_of_pos hmem, List.takeWhile_append_of_pos hmem]
  simp [List.dropWhile, List.takeWhile]

/-! ## The dispatch loop -/

/-- Entered with a counter of at most 5, the loop starts tasks for exactly the
first `6 - count` items. -/
theorem dispatchLoop_eq_take : ∀ (items : List Item) (count : Nat), count ≤ 5 →
    dispatchLoop items count = items.take (6 - count)
  | [], _, _ => by simp [dispatchLoop]
  | item :: rest, count, h => by
    by_cases hc : count + 1 > 5
    · have h5 : count = 5 := by omega
      subst h5
      simp [dispatchLoop]
    · have ih := dispatchLoop_eq_take rest (count + 1) (by omega)
      have h6 : 6 - count = (6 - (count + 1)) + 1 := by omega
      simp only [dispatchLoop, hc, if_false, ih]
      rw [h6, List.take_succ_cons]

theorem itemHandler_started (newitems : List Item) :
    (itemHandler newitems).started = newitems.take 6 := by
  simp [itemHandler, dispatchLoop_eq_take newitems 0 (by omega)]

/-- The wait in `itemHandler` returns exactly for batches of at most 6 items. -/
theorem itemHandler_waitReturns_iff (newitems : List Item) :
    (itemHandler newitems).waitReturns = true ↔ newitems.length ≤ 6 := by
  have h := itemHandler_started newitems
  simp only [Dispatch.waitReturns, Dispatch.counterAfterDone, decide_eq_true_eq, h,
    List.length_take]
  simp only [itemHandler]
  omega

/-! ## Enrichment and the space count of a title -/

/-- Enrichment by `Process` never touches `ID`, `JobURL` or `Status`. -/
theorem process_keeps (p q : PR) (resp : Lookup) (h : PR.Process p resp = .done q) :
    q.ID = p.ID ∧ q.JobURL = p.JobURL ∧ q.Status = p.Status := by
  unfold PR.Process at h
  cases resp with
  | err =>
    simp only [Run.done.injEq] at h
    subst h
    exact ⟨rfl, rfl, rfl⟩
  | ok pr =>
    obtain ⟨user, title⟩ := pr
    cases user with
    | none =>
      cases title with
      | none => simp only [Run.done.injEq] at h; subst h; exact ⟨rfl, rfl, rfl⟩
      | some t => simp only [Run.done.injEq] at h; subst h; exact ⟨rfl, rfl, rfl⟩
    | some u =>
      obtain ⟨login⟩ := u
      cases login with
      | none => simp at h
      | some l =>
        cases title with
        | none => simp only [Run.done.injEq] at h; subst h; exact ⟨rfl, rfl, rfl⟩
        | some t => simp only [Run.done.injEq] at h; subst h; exact ⟨rfl, rfl, rfl⟩

/-- Outside the one case of a user whose login is nil, `Process` returns the
record with `Title` and `Author` taken from the response fields present. -/
theorem process_total (p : PR) (resp : Lookup)
    (hlogin : ∀ pr user, resp = .ok pr → pr.User = some user → user.Login ≠ none) :
    ∃ q, PR.Process p resp = .done q ∧
      q.ID = p.ID ∧ q.JobURL = p.JobURL ∧ q.Status = p.Status ∧
      q.Author = (match resp with
        | .err => p.Author
        | .ok pr => ((pr.User.bind (fun u => u.Login)).getD p.Author)) ∧
      q.Title = (match resp with
        | .err => p.Title
        | .ok pr => pr.Title.getD p.Title) := by
  cases resp with
  | err => exact ⟨p, rfl, rfl, rfl, rfl, rfl, rfl⟩
  | ok pr =>
    obtain ⟨user, title⟩ := pr
    cases user with
    | none =>
      cases title with
      | none => exact ⟨p, rfl, rfl, rfl, rfl, rfl, rfl⟩
      | some t => exact ⟨_, rfl, rfl, rfl, rfl, rfl, rfl⟩
    | some u =>
      obtain ⟨login⟩ := u
      cases login with
      | none => exact absurd rfl (hlogin _ _ rfl rfl)
      | some l =>
        cases title with
        | none => exact ⟨_, rfl, rfl, rfl, rfl, rfl, rfl⟩
        | some t => exact ⟨_, rfl, rfl, rfl, rfl, rfl, rfl⟩

theorem count_of_dropWhile (c : UInt8) : ∀ (s : GoString) (d : UInt8) (r : GoString),
    s.dropWhile (fun b => b != c) = d :: r → s.count c = r.count c + 1
  | [], d, r, h => by simp at h
  | x :: t, d, r, h => by
    by_cases hx : x = c
    · subst hx
      simp only [List.dropWhile, bne_self_eq_false] at h
      obtain ⟨_, rfl⟩ := List.cons.inj h
      simp
    · have hne : (x != c) = true := by simpa using hx
      simp only [List.dropWhile, hne] at h
      have ih := count_of_dropWhile c t d r h
      rw [List.count_cons_of_ne (Ne.symm hx), ih]

/-- A title splits into three parts only if it holds at least two spaces. -/
theorem specParts_three (title : GoString) (h : (specParts title).length = 3) :
    2 ≤ title.count 32 := by
  unfold specParts at h
  rw [List.span_eq_take_drop] at h
  cases h1 : title.dropWhile (fun b => b != 32) with
  | nil => simp [h1] at h
  | cons d r =>
    have c1 := count_of_dropWhile 32 title d r h1
    simp only [h1] at h
    rw [List.span_eq_take_drop] at h
    cases h2 : r.dropWhile (fun b => b != 32) with
    | nil => simp [h2] at h
    | cons d2 r2 =>
      have c2 := count_of_dropWhile 32 r d2 r2 h2
      omega

/-! ## Contents without a well-formed reference -/

/-- A content whose first `/pull/` has no double quote after it makes the second
slice expression of `processPR` panic, whatever the content. -/
theorem parsePull_unterminated (pre rest : GoString)
    (hfirst : ∀ k, k < pre.length → ¬ go "/pull/" <+: (pre ++ (go "/pull/" ++ rest)).drop k)
    (hq : (34 : UInt8) ∉ rest) :
    parsePull (pre ++ (go "/pull/" ++ rest)) = .panic := by
  have hlen : (go "/pull/").length = 6 := by decide
  have hquote : go "\"" = [34] := by decide
  have hidx := index_of_first pre (go "/pull/" ++ rest) (go "/pull/")
    (List.prefix_append _ _) hfirst
  have hb : (0 : Int) ≤ (pre.length : Int) + 6 ∧ (pre.length : Int) + 6 ≤
      ((pre ++ (go "/pull/" ++ rest)).length : Int) := by
    simp only [List.length_append, hlen]
    push_cast
    omega
  have hdrop : (pre ++ (go "/pull/" ++ rest)).drop ((pre.length : Int) + 6).toNat = rest := by
    have h1 : ((pre.length : Int) + 6).toNat = (pre ++ go "/pull/").length := by
      rw [List.length_append, hlen]; omega
    rw [h1, ← List.append_assoc, List.drop_left]
  have hnone : Index rest [34] = -1 := by
    unfold Index
    rw [indexFrom_single]
    have : rest.dropWhile (fun b => b != 34) = [] := by
      rw [List.dropWhile_eq_nil_iff]
      intro x hx
      have : x ≠ 34 := fun h => hq (h ▸ hx)
      simpa using this
    simp [this]
  unfold parsePull
  rw [hidx]
  simp only [sliceFrom, hb, and_self, if_true, hdrop, hquote, hnone, sliceTo]
  simp

/-! ## The title classifier -/

/-- C1: `titleToState` equals the reference classifier of the specification on
every title (split at single spaces into at most three parts; not exactly three
parts gives `UNKNOWN`; otherwise the third part is searched for `broken since`,
`back to normal`, `stable`, `aborted` in that order, and without a match the
result is `UNKNOWN(` third part `)`), and the five sample titles classify as the
specification lists them. -/
theorem titleToState_eq_specClassifier :
    (∀ title : GoString, titleToState title = specClassifier title) ∧
    titleToState (go "job #12 broken since build #11") = go "STILL FAILING" ∧
    titleToState (go "job #12 back to normal") = go "NOW FIXED" ∧
    titleToState (go "job #12 is stable") = go "STILL OK" ∧
    titleToState (go "job #12 was aborted") = go "" ∧
    titleToState (go "job #12 something weird") = go "UNKNOWN(something weird)" :=
  ⟨titleToState_refines, by decide, by decide, by decide, by decide, by decide⟩

/-! ## The pull-request number -/

/-- C2: when the first occurrence of `/pull/` in the content is immediately
followed by the decimal digits of a natural number `n < 2^63` and then a double
quote, the parsing step of `processPR` yields `n`, whatever precedes `/pull/`
and whatever follows the quote, and `processPR` sends the enriched record built
with `ID = n`. -/
theorem parsePull_wellFormed (pre post : GoString) (n : Nat) (hn : n < 2 ^ 63)
    (hfirst : ∀ k, k < pre.length →
      ¬ go "/pull/" <+: (pre ++ go "/pull/" ++ go (toString n) ++ go "\"" ++ post).drop k)
    (get : Int → Lookup) (href status : GoString) :
    parsePull (pre ++ go "/pull/" ++ go (toString n) ++ go "\"" ++ post)
        = .done (some (n : Int)) ∧
    processPR get (pre ++ go "/pull/" ++ go (toString n) ++ go "\"" ++ post) href status
        = (match PR.Process ⟨(n : Int), href, [], [], status⟩ (get n) with
            | .panic => .panic
            | .done pr => .done [pr]) := by
  obtain ⟨hd1, hd2, hd3⟩ := decimal_spec n
  have hq : go "\"" = [34] := by decide
  have hlen : (go "/pull/").length = 6 := by decide
  have hparse : parsePull (pre ++ go "/pull/" ++ go (toString n) ++ go "\"" ++ post)
      = .done (some (n : Int)) := by
    rw [hq] at hfirst ⊢
    simp only [List.append_assoc, List.singleton_append] at hfirst ⊢
    have hidx := index_of_first pre (go "/pull/" ++ (go (toString n) ++ 34 :: post))
      (go "/pull/") (List.prefix_append _ _) hfirst
    unfold parsePull
    rw [hidx]
    have hb : (0 : Int) ≤ (pre.length : Int) + 6 ∧ (pre.length : Int) + 6 ≤
        ((pre ++ (go "/pull/" ++ (go (toString n) ++ 34 :: post))).length : Int) := by
      simp only [List.length_append, hlen]
      push_cast
      omega
    have hdrop : (pre ++ (go "/pull/" ++ (go (toString n) ++ 34 :: post))).drop
        ((pre.length : Int) + 6).toNat = go (toString n) ++ 34 :: post := by
      have h1 : ((pre.length : Int) + 6).toNat = (pre ++ go "/pull/").length := by
        rw [List.length_append, hlen]; omega
      rw [h1, ← List.append_assoc, List.drop_left]
    simp only [sliceFrom, hb, and_self, if_true, hdrop, hq]
    rw [index_quote_after_digits _ _ hd2]
    have hb2 : (0 : Int) ≤ ((go (toString n)).length : Int) ∧ ((go (toString n)).length : Int) ≤
        ((go (toString n) ++ 34 :: post).length : Int) := by
      simp only [List.length_append]
      push_cast
      omega
    simp only [sliceTo, hb2, and_self, if_true, Int.toNat_ofNat, List.take_left]
    rw [atoi_digits _ hd1 hd2 (by rw [hd3]; exact hn), hd3]
  refine ⟨hparse, ?_⟩
  unfold processPR
  rw [hparse]

/-- C2 at the sample content of the specification, `<a href="https://x/pull/42">pr</a>`. -/
theorem parsePull_wellFormed_witness :
    ((42 : Nat) < 2 ^ 63 ∧
      ∀ k, k < (go "<a href=\"https://x").length →
        ¬ go "/pull/" <+: (go "<a href=\"https://x" ++ go "/pull/" ++ go (toString 42)
            ++ go "\"" ++ go ">pr</a>").drop k) ∧
    parsePull (go "<a href=\"https://x/pull/42\">pr</a>") = .done (some 42) :=
  ⟨⟨by decide, by decide⟩,
    (parsePull_wellFormed (go "<a href=\"https://x") (go ">pr</a>") 42 (by decide) (by decide)
      (fun _ => Lookup.err) [] []).1⟩

/-! ## The dispatcher -/

/-- C10: for every list of `n` new items, `itemHandler` starts per-item tasks for
exactly the first `min(n, 6)` items, in feed order, and for no later item; batches
of size 5, 6, 7 and 8 start 5, 6, 6 and 6 tasks. -/
theorem itemHandler_starts_first_six :
    (∀ newitems : List Item,
      (itemHandler newitems).started = newitems.take (min newitems.length 6) ∧
      (itemHandler newitems).started.length = min newitems.length 6) ∧
    (∀ newitems : List Item, newitems.length = 5 → (itemHandler newitems).started.length = 5) ∧
    (∀ newitems : List Item, newitems.length = 6 → (itemHandler newitems).started.length = 6) ∧
    (∀ newitems : List Item, newitems.length = 7 → (itemHandler newitems).started.length = 6) ∧
    (∀ newitems : List Item, newitems.length = 8 → (itemHandler newitems).started.length = 6) := by
  have key : ∀ newitems : List Item,
      (itemHandler newitems).started = newitems.take (min newitems.length 6) ∧
      (itemHandler newitems).started.length = min newitems.length 6 := by
    intro newitems
    rw [itemHandler_started]
    constructor
    · rcases Nat.le_total newitems.length 6 with h | h
      · rw [Nat.min_eq_left h, List.take_of_length_le h, List.take_length]
      · rw [Nat.min_eq_right h]
    · rw [List.length_take, Nat.min_comm]
  refine ⟨key, ?_, ?_, ?_, ?_⟩ <;>
  · intro newitems hlen
    rw [(key newitems).2, hlen]
    rfl

/-- C3, as stated, fails: handed a batch of 6 items, `itemHandler` starts a task
for each of the 6, the sixth included, which is more than 5. -/
theorem itemHandler_six_started :
    (itemHandler (sampleBatch 6)).started = sampleBatch 6 ∧
    ¬ (itemHandler (sampleBatch 6)).started.length ≤ 5 := by
  decide

/-- C3, amended: for every list of new items handed to `itemHandler` in one
polling cycle, per-item tasks are started for at most the first 6 items of the
list. -/
theorem itemHandler_burst_cap (newitems : List Item) :
    (itemHandler newitems).started <+: newitems ∧
    (itemHandler newitems).started.length ≤ 6 := by
  rw [itemHandler_started]
  exact ⟨List.take_prefix _ _, by rw [List.length_take]; omega⟩

/-- C4 at a batch of 7 items: `wg.Add` receives 7, only 6 tasks are started, so
after all of them have called `wg.Done` the counter is 1 and `wg.Wait` does not
return. -/
theorem itemHandler_seven_blocks :
    (itemHandler (sampleBatch 7)).added = 7 ∧
    (itemHandler (sampleBatch 7)).started.length = 6 ∧
    (itemHandler (sampleBatch 7)).counterAfterDone = 1 ∧
    (itemHandler (sampleBatch 7)).waitReturns = false := by
  decide

/-! ## Titles with fewer than three parts -/

/-- C9, as stated, fails: the title `a  b` (two spaces) has 2 whitespace-separated
segments, yet `titleToState` returns `UNKNOWN(b)`, not `UNKNOWN`. -/
theorem titleToState_double_space :
    specSegments (go "a  b") = 2 ∧ specSegments (go "a  b") < 3 ∧
    titleToState (go "a  b") = go "UNKNOWN(b)" ∧
    titleToState (go "a  b") ≠ go "UNKNOWN" := by
  decide

/-- C9, amended: for every title that has fewer than 3 parts when split at single
space characters, that is a title holding fewer than two space characters,
`titleToState` returns exactly `UNKNOWN`. -/
theorem titleToState_few_spaces (title : GoString) (h : title.count 32 < 2) :
    titleToState title = go "UNKNOWN" := by
  have hlen : (specParts title).length ≠ 3 := fun h3 => by
    have := specParts_three title h3
    omega
  unfold titleToState
  simp only [splitN_eq_specParts, hlen, ne_eq, not_false_eq_true, if_true]

/-- C9, amended, at the title `job #12`. -/
theorem titleToState_few_spaces_witness :
    (go "job #12").count 32 < 2 ∧ titleToState (go "job #12") = go "UNKNOWN" :=
  ⟨by decide, titleToState_few_spaces (go "job #12") (by decide)⟩

/-! ## What `prHandler` sends -/

/-- C5 at the item titled `job #12 was aborted`, with a link and a content holding
`/pull/7"`: the title classifies to the empty status, the suppression value of
`titleToState`, yet `prHandler` never tests it and sends the notification on the
queue with an empty `Status`. -/
theorem prHandler_aborted_sent :
    titleToState (go "job #12 was aborted") = go "" ∧
    prHandler (fun _ => Lookup.ok ⟨some ⟨some (go "alice")⟩, some (go "Fix bug")⟩)
        ⟨go "job #12 was aborted", [⟨go "https://ci/job/12"⟩],
          some ⟨go "<a href=\"https://x/pull/7\">pr</a>"⟩⟩
      = .done [⟨7, go "https://ci/job/12", go "Fix bug", go "alice", go ""⟩] := by
  decide

/-- C6 at the content `hello42"`: it does not contain `/pull/`, yet `processPR`
takes the number 42 from it and sends a notification with `ID = 42`. -/
theorem processPR_no_pull_sends :
    ¬ go "/pull/" <:+: go "hello42\"" ∧
    Index (go "hello42\"") (go "/pull/") = -1 ∧
    parsePull (go "hello42\"") = .done (some 42) ∧
    processPR (fun _ => Lookup.err) (go "hello42\"") (go "https://ci/job/12") (go "STILL OK")
      = .done [⟨42, go "https://ci/job/12", [], [], go "STILL OK"⟩] := by
  decide

/-- C7 at the content `https://x/pull/7`: it contains `/pull/` and no double quote,
and `processPR` stops with a run-time panic in the slice expression `s[:-1]`. -/
theorem processPR_unterminated_panics :
    go "/pull/" <:+: go "https://x/pull/7" ∧
    (34 : UInt8) ∉ go "https://x/pull/7" ∧
    sliceFrom (go "https://x/pull/7") (Index (go "https://x/pull/7") (go "/pull/") + 6)
      = .done (go "7") ∧
    Index (go "7") (go "\"") = -1 ∧
    sliceTo (go "7") (-1) = .panic ∧
    processPR (fun _ => Lookup.err) (go "https://x/pull/7") (go "https://ci/job/12")
      (go "STILL OK") = .panic := by
  decide

/-! ## Enrichment -/

/-- C8 at a response whose user is present with a nil login: `Process` stops with
a run-time panic (nil pointer dereference) instead of returning the record. -/
theorem process_nil_login_panics :
    PR.Process ⟨7, go "https://ci/job/12", [], [], go "STILL OK"⟩
      (Lookup.ok ⟨some ⟨none⟩, some (go "Fix bug")⟩) = .panic := by
  decide

end JenkinsBot
